import Mathlib

/-!
Verification of the serializer demo: a suspension-based (async) chunked
byte producer and an explicit state-machine producer, which are claimed to
emit identical encoded byte streams.

The embedding follows `src/src/lib.rs` and `src/examples/serializer.rs`.
Machine integers are modelled as `Nat` with explicit `% 2^w` where the
source performs a narrowing cast (`as u16`).  Fallible operations (Rust
panics, e.g. polling an `async fn` future after it has completed, or an
out-of-bounds slice index) are modelled with `Except Unit`, `.error ()`
standing for a panic.
-/

/-- `struct Object { object_type: u8, data: Vec<u8> }` — an object to be
serialized.  Byte values are carried as `Nat`. -/
structure Object where
  object_type : Nat
  data : List Nat
deriving DecidableEq

/-- The two bytes of `((obj.data.len() + 1) as u16).to_le_bytes()`:
the length field of a record, low byte first. -/
def lenBytes (obj : Object) : List Nat :=
  [((obj.data.length + 1) % 65536) % 256, ((obj.data.length + 1) % 65536) / 256 % 256]

/-- The encoded record of one object: length field, then type byte, then the
data block.  This is the order in which `polling_serializer` emits bytes. -/
def encodeObject (obj : Object) : List Nat :=
  lenBytes obj ++ obj.object_type :: obj.data

/-- The full encoded stream for a sequence of objects (records concatenated
with no separators). -/
def encodeObjects : List Object → List Nat
  | [] => []
  | obj :: rest => encodeObject obj ++ encodeObjects rest

/-- The numeric value of the 2-byte little-endian length field at the head of
an object's encoded record. -/
def recordLenField (obj : Object) : Nat :=
  (encodeObject obj).getD 0 0 + 256 * (encodeObject obj).getD 1 0

/-- Syntax trees for the compiled future of `polling_serializer`: a sequence
of register writes (`write_fn(b)` calls) and suspension points (`pending!`),
ending with completion.  `.write b k` performs the write and continues as
`k`; `.yield k` is a suspension point whose continuation is `k`. -/
inductive Comp where
  | done : Comp
  | yield : Comp → Comp
  | write : Nat → Comp → Comp
deriving DecidableEq

/-- `async fn write_bytes(src, write_fn)`: writes each byte of `src`, with a
`pending!()` suspension after every byte, then continues as `k`. -/
def write_bytes (src : List Nat) (k : Comp) : Comp :=
  src.foldr (fun b acc => .write b (.yield acc)) k

/-- `async fn polling_serializer(objects, write_fn)`: for each object, write
the two length bytes, then the type byte, then the data block. -/
def polling_serializer (objects : List Object) : Comp :=
  objects.foldr
    (fun obj k =>
      write_bytes (lenBytes obj) (write_bytes [obj.object_type] (write_bytes obj.data k)))
    .done

/-- Run the compiled future up to its next suspension point (or completion):
the list of register writes performed during this poll, and the
continuation (`none` when the future returned `Ready`). -/
def runToSuspend : Comp → List Nat × Option Comp
  | .done => ([], none)
  | .yield k => ([], some k)
  | .write b k => ((runToSuspend k).1.cons b, (runToSuspend k).2)

/-- Every register write during a poll overwrites the previous value: the
register after a poll holds the last written byte (or its old value when the
poll wrote nothing). -/
def applyWrites (reg : Nat) (ws : List Nat) : Nat :=
  ws.foldl (fun _ b => b) reg

/-- `poll_once` (src/src/lib.rs) applied to the serializer future.  The
future state is `some c` while alive and `none` once it has returned
`Ready`; polling a completed `async fn` future panics (`.error ()`).
Returns the new future state, the new register value, and whether the poll
returned `Ready`. -/
def poll_once (f : Option Comp) (reg : Nat) : Except Unit (Option Comp × Nat × Bool) :=
  match f with
  | none => .error ()
  | some c =>
    match runToSuspend c with
    | (ws, none) => .ok (none, applyWrites reg ws, true)
    | (ws, some k) => .ok (some k, applyWrites reg ws, false)

/-- `AsyncSerializer::read(buf)` with a buffer of length `n`: repeatedly
polls the future; on `Ready` it stops, otherwise it copies the register into
the buffer and advances.  Returns the bytes written to `buf[0..count]`,
together with the updated future state and register. -/
def asyncRead : Option Comp → Nat → Nat → Except Unit (List Nat × Option Comp × Nat)
  | f, reg, 0 => .ok ([], f, reg)
  | f, reg, n + 1 =>
    match poll_once f reg with
    | .error e => .error e
    | .ok (f2, reg2, true) => .ok ([], f2, reg2)
    | .ok (f2, reg2, false) =>
      match asyncRead f2 reg2 n with
      | .error e => .error e
      | .ok (out, f3, reg3) => .ok (reg2 :: out, f3, reg3)

/-- Well-formedness of a compiled serializer future: every register write is
immediately followed by a suspension point.  This is the structural property
of `write_bytes` that makes "one byte per poll" true. -/
def wfComp : Comp → Bool
  | .done => true
  | .write _ (.yield k) => wfComp k
  | _ => false

/-- The bytes a compiled future will write over its remaining lifetime. -/
def compBytes : Comp → List Nat
  | .done => []
  | .yield k => compBytes k
  | .write b k => b :: compBytes k

/-- Well-formedness of a future state (`none` = completed). -/
def stateWf : Option Comp → Bool
  | none => true
  | some c => wfComp c

/-- Remaining output of a future state. -/
def stateBytes : Option Comp → List Nat
  | none => []
  | some c => compBytes c

/-- The drain loop from `main`: read with an `n`-byte buffer, append the
written prefix, stop when a call returns fewer than `n` bytes.  `fuel`
bounds the number of read calls; `.ok none` means the bound was reached
before the drain finished. -/
def drainAsync (n : Nat) : Nat → Option Comp → Nat → Except Unit (Option (List Nat))
  | 0, _, _ => .ok none
  | fuel + 1, f, reg =>
    match asyncRead f reg n with
    | .error e => .error e
    | .ok (out, f2, reg2) =>
      if out.length < n then .ok (some out)
      else
        match drainAsync n fuel f2 reg2 with
        | .error e => .error e
        | .ok none => .ok none
        | .ok (some rest) => .ok (some (out ++ rest))

/-- The drain protocol as the spec words it: read with an `n`-byte buffer
repeatedly until a call reports `0` bytes. -/
def drainAsyncToZero (n : Nat) : Nat → Option Comp → Nat → Except Unit (Option (List Nat))
  | 0, _, _ => .ok none
  | fuel + 1, f, reg =>
    match asyncRead f reg n with
    | .error e => .error e
    | .ok (out, f2, reg2) =>
      if out.length = 0 then .ok (some [])
      else
        match drainAsyncToZero n fuel f2 reg2 with
        | .error e => .error e
        | .ok none => .ok none
        | .ok (some rest) => .ok (some (out ++ rest))

/-- `enum State { Len1, Len2, Type, Data(usize) }` of the explicit
state-machine serializer. -/
inductive State where
  | len1 : State
  | len2 : State
  | type : State
  | data : Nat → State
deriving DecidableEq

/-- One iteration of the loop body of `SyncSerializer::read`, given the
current object: the byte stored into the buffer and the updated
`(state, idx)`.  `.error ()` models the panic of the out-of-bounds index
`obj.data[offset]`. -/
def syncStep (obj : Object) (s : State) (idx : Nat) : Except Unit (Nat × State × Nat) :=
  match s with
  | .len1 => .ok (((obj.data.length + 1) % 65536) % 256, .len2, idx)
  | .len2 => .ok (((obj.data.length + 1) % 65536) / 256 % 256, .type, idx)
  | .type =>
    if 0 < obj.data.length then .ok (obj.object_type, .data 0, idx)
    else .ok (obj.object_type, .len1, idx + 1)
  | .data off =>
    if h : off < obj.data.length then
      if obj.data.length - 1 ≤ off then .ok (obj.data.get ⟨off, h⟩, .len1, idx + 1)
      else .ok (obj.data.get ⟨off, h⟩, .data (off + 1), idx)
    else .error ()

/-- `SyncSerializer::read(buf)` with a buffer of length `n`: loops until the
buffer is full or the cursor `idx` is past the end of the object sequence,
emitting one byte per iteration.  Returns the bytes written to
`buf[0..count]` and the updated `(state, idx)`. -/
def syncRead (objects : List Object) : State → Nat → Nat → Except Unit (List Nat × State × Nat)
  | s, idx, 0 => .ok ([], s, idx)
  | s, idx, n + 1 =>
    if idx < objects.length then
      match syncStep (objects.getD idx ⟨0, []⟩) s idx with
      | .error e => .error e
      | .ok (b, s2, idx2) =>
        match syncRead objects s2 idx2 n with
        | .error e => .error e
        | .ok (out, s3, idx3) => .ok (b :: out, s3, idx3)
    else .ok ([], s, idx)

/-- Drain loop from `main` for the sync serializer: stop when a read returns
fewer than `n` bytes; `fuel` bounds the number of read calls. -/
def drainSync (objects : List Object) (n : Nat) : Nat → State → Nat → Except Unit (Option (List Nat))
  | 0, _, _ => .ok none
  | fuel + 1, s, idx =>
    match syncRead objects s idx n with
    | .error e => .error e
    | .ok (out, s2, idx2) =>
      if out.length < n then .ok (some out)
      else
        match drainSync objects n fuel s2 idx2 with
        | .error e => .error e
        | .ok none => .ok none
        | .ok (some rest) => .ok (some (out ++ rest))

/-- Drain protocol as the spec words it for the sync serializer: stop when a
read reports `0` bytes. -/
def drainSyncToZero (objects : List Object) (n : Nat) : Nat → State → Nat → Except Unit (Option (List Nat))
  | 0, _, _ => .ok none
  | fuel + 1, s, idx =>
    match syncRead objects s idx n with
    | .error e => .error e
    | .ok (out, s2, idx2) =>
      if out.length = 0 then .ok (some [])
      else
        match drainSyncToZero objects n fuel s2 idx2 with
        | .error e => .error e
        | .ok none => .ok none
        | .ok (some rest) => .ok (some (out ++ rest))

/-- The output bytes still to be emitted from within the current object,
given the state tag. -/
def stateRemaining (obj : Object) : State → List Nat
  | .len1 => encodeObject obj
  | .len2 => ((obj.data.length + 1) % 65536) / 256 % 256 :: obj.object_type :: obj.data
  | .type => obj.object_type :: obj.data
  | .data off => obj.data.drop off

/-- All output bytes still to be emitted by a sync serializer in state
`(s, idx)`. -/
def syncRemaining (objects : List Object) (s : State) (idx : Nat) : List Nat :=
  if idx < objects.length then
    stateRemaining (objects.getD idx ⟨0, []⟩) s ++ encodeObjects (objects.drop (idx + 1))
  else []

/-- Validity of a sync serializer state: when the cursor is in range and the
state is `Data(off)`, `off` is a valid index into the current object's data
block.  (A cursor past the end is terminal, whatever the state tag.) -/
def validState (objects : List Object) (s : State) (idx : Nat) : Bool :=
  match s with
  | .data off =>
    match objects[idx]? with
    | some obj => decide (off < obj.data.length)
    | none => true
  | _ => true

/-- Sync serializer states reachable from `SyncSerializer::new` by any
sequence of `read` calls with arbitrary buffer sizes. -/
inductive Reachable (objects : List Object) : State → Nat → Prop where
  | init : Reachable objects .len1 0
  | step {s idx n out s2 idx2} : Reachable objects s idx →
      syncRead objects s idx n = .ok (out, s2, idx2) → Reachable objects s2 idx2

theorem write_bytes_nil (k : Comp) : write_bytes [] k = k := rfl

theorem write_bytes_cons (b : Nat) (rest : List Nat) (k : Comp) :
    write_bytes (b :: rest) k = .write b (.yield (write_bytes rest k)) := rfl

theorem write_bytes_wf (src : List Nat) (k : Comp) :
    wfComp (write_bytes src k) = wfComp k := by
  induction src with
  | nil => rfl
  | cons b rest ih => rw [write_bytes_cons]; simpa [wfComp] using ih

theorem write_bytes_bytes (src : List Nat) (k : Comp) :
    compBytes (write_bytes src k) = src ++ compBytes k := by
  induction src with
  | nil => rfl
  | cons b rest ih => rw [write_bytes_cons]; simp [compBytes, ih]

theorem polling_serializer_nil : polling_serializer [] = .done := rfl

theorem polling_serializer_cons (obj : Object) (rest : List Object) :
    polling_serializer (obj :: rest) =
      write_bytes (lenBytes obj)
        (write_bytes [obj.object_type] (write_bytes obj.data (polling_serializer rest))) := rfl

theorem polling_serializer_wf (objects : List Object) :
    wfComp (polling_serializer objects) = true := by
  induction objects with
  | nil => rfl
  | cons obj rest ih =>
    rw [polling_serializer_cons, write_bytes_wf, write_bytes_wf, write_bytes_wf]
    exact ih

theorem polling_serializer_bytes (objects : List Object) :
    compBytes (polling_serializer objects) = encodeObjects objects := by
  induction objects with
  | nil => rfl
  | cons obj rest ih =>
    rw [polling_serializer_cons, write_bytes_bytes, write_bytes_bytes, write_bytes_bytes, ih]
    simp [encodeObjects, encodeObject]

theorem wfComp_cases (c : Comp) (h : wfComp c = true) :
    c = .done ∨ ∃ b k, c = .write b (.yield k) ∧ wfComp k = true := by
  match c with
  | .done => exact Or.inl rfl
  | .yield k => simp [wfComp] at h
  | .write b .done => simp [wfComp] at h
  | .write b (.yield k) =>
    simp only [wfComp] at h
    exact Or.inr ⟨b, k, rfl, h⟩
  | .write b (.write b2 k) => simp [wfComp] at h

/-- Behaviour of `AsyncSerializer::read` on a well-formed live future: it
returns the next `min n remaining` bytes, the resulting future state is
well-formed with the rest of the bytes remaining, and the future is still
live when the buffer was filled completely from the remaining bytes. -/
theorem asyncRead_spec : ∀ (n : Nat) (c : Comp) (reg : Nat), wfComp c = true →
    ∃ f2 reg2, asyncRead (some c) reg n = .ok ((compBytes c).take n, f2, reg2)
      ∧ stateWf f2 = true ∧ stateBytes f2 = (compBytes c).drop n
      ∧ (n ≤ (compBytes c).length → ∃ k, f2 = some k) := by
  intro n
  induction n with
  | zero =>
    intro c reg h
    exact ⟨some c, reg, rfl, h, rfl, fun _ => ⟨c, rfl⟩⟩
  | succ n ih =>
    intro c reg h
    rcases wfComp_cases c h with hc | ⟨b, k, hc, hk⟩
    · subst hc
      refine ⟨none, reg, rfl, rfl, rfl, fun hle => ?_⟩
      simp [compBytes] at hle
    · subst hc
      obtain ⟨f2, reg2, heq, hwf, hbytes, hsome⟩ := ih k b hk
      refine ⟨f2, reg2, ?_, hwf, ?_, fun hle => ?_⟩
      · simp [asyncRead, poll_once, runToSuspend, applyWrites, heq, compBytes]
      · simpa [compBytes] using hbytes
      · simp [compBytes] at hle
        exact hsome hle

/-- Draining a well-formed live future with buffers of size `n ≥ 1`, until a
read falls short of `n` bytes, yields exactly its remaining bytes, given
fuel for at least `remaining + 1` calls. -/
theorem drainAsync_spec : ∀ (fuel : Nat) (c : Comp) (reg n : Nat), 1 ≤ n →
    wfComp c = true → (compBytes c).length < fuel →
    drainAsync n fuel (some c) reg = .ok (some (compBytes c)) := by
  intro fuel
  induction fuel with
  | zero => intro c reg n hn hwf hlt; omega
  | succ fuel ih =>
    intro c reg n hn hwf hlt
    obtain ⟨f2, reg2, heq, hwf2, hbytes, hsome⟩ := asyncRead_spec n c reg hwf
    by_cases hcase : (compBytes c).length < n
    · have htake : (compBytes c).take n = compBytes c :=
        List.take_of_length_le (le_of_lt hcase)
      simp [drainAsync, heq, htake, hcase]
    · push_neg at hcase
      have hlen : ((compBytes c).take n).length = n := by
        simp [List.length_take]; omega
      obtain ⟨k, hk⟩ := hsome hcase
      subst hk
      have hbk : compBytes k = (compBytes c).drop n := hbytes
      have hrec : (compBytes k).length < fuel := by
        rw [hbk, List.length_drop]; omega
      have hdrain := ih k reg2 n hn hwf2 hrec
      rw [hbk] at hdrain
      simp [drainAsync, heq, hlen, hdrain, List.take_append_drop]

theorem syncRemaining_len1 (objects : List Object) (idx : Nat) :
    syncRemaining objects .len1 idx = encodeObjects (objects.drop idx) := by
  by_cases h : idx < objects.length
  · have hdrop : objects.drop idx = objects.getD idx ⟨0, []⟩ :: objects.drop (idx + 1) := by
      rw [List.getD_eq_getElem _ _ h]
      exact List.drop_eq_getElem_cons h
    rw [hdrop]
    simp [syncRemaining, h, stateRemaining, encodeObjects]
  · have hdrop : objects.drop idx = [] := by
      simp [List.drop_eq_nil_iff]; omega
    simp [syncRemaining, h, hdrop, encodeObjects]

/-- Unfolding `syncRemaining` when the cursor is in range. -/
theorem syncRemaining_pos (objects : List Object) (s : State) (idx : Nat)
    (h : idx < objects.length) :
    syncRemaining objects s idx
      = stateRemaining (objects.getD idx ⟨0, []⟩) s ++ encodeObjects (objects.drop (idx + 1)) := by
  unfold syncRemaining
  rw [if_pos h]

/-- Unfolding `syncRemaining` when the cursor is past the end. -/
theorem syncRemaining_neg (objects : List Object) (s : State) (idx : Nat)
    (h : ¬ idx < objects.length) :
    syncRemaining objects s idx = [] := by
  unfold syncRemaining
  rw [if_neg h]

theorem getElem?_eq_some_getD (objects : List Object) (idx : Nat)
    (h : idx < objects.length) :
    objects[idx]? = some (objects.getD idx ⟨0, []⟩) := by
  rw [List.getElem?_eq_getElem h, List.getD_eq_getElem _ _ h]

theorem validState_data_iff (objects : List Object) (off idx : Nat)
    (h : idx < objects.length) :
    validState objects (.data off) idx = true
      ↔ off < (objects.getD idx ⟨0, []⟩).data.length := by
  show (match objects[idx]? with
        | some obj => decide (off < obj.data.length)
        | none => true) = true ↔ _
  rw [getElem?_eq_some_getD objects idx h]
  simp

/-- Unfolding `syncRead` on a non-empty buffer when the cursor is in range. -/
theorem syncRead_succ_pos (objects : List Object) (s : State) (idx n : Nat)
    (h : idx < objects.length) :
    syncRead objects s idx (n + 1) =
      match syncStep (objects.getD idx ⟨0, []⟩) s idx with
      | .error e => .error e
      | .ok (b, s2, idx2) =>
        match syncRead objects s2 idx2 n with
        | .error e => .error e
        | .ok (out, s3, idx3) => .ok (b :: out, s3, idx3) := by
  simp only [syncRead]
  rw [if_pos h]

/-- Unfolding `syncRead` on a non-empty buffer when the cursor is past the
end: no byte is emitted and the state is untouched. -/
theorem syncRead_succ_neg (objects : List Object) (s : State) (idx n : Nat)
    (h : ¬ idx < objects.length) :
    syncRead objects s idx (n + 1) = .ok ([], s, idx) := by
  simp only [syncRead]
  rw [if_neg h]

/-- One loop iteration of `SyncSerializer::read` from a valid, non-terminal
state: it emits exactly the head of the remaining output and moves to a
valid state whose remaining output is the tail. -/
theorem syncStep_remaining (objects : List Object) (s : State) (idx : Nat)
    (hidx : idx < objects.length) (hv : validState objects s idx = true) :
    ∃ b s2 idx2, syncStep (objects.getD idx ⟨0, []⟩) s idx = .ok (b, s2, idx2)
      ∧ validState objects s2 idx2 = true
      ∧ syncRemaining objects s idx = b :: syncRemaining objects s2 idx2 := by
  match s with
  | .len1 =>
    refine ⟨_, .len2, idx, rfl, rfl, ?_⟩
    rw [syncRemaining_pos objects _ idx hidx, syncRemaining_pos objects _ idx hidx]
    simp only [stateRemaining, encodeObject, lenBytes]
    simp
  | .len2 =>
    refine ⟨_, .type, idx, rfl, rfl, ?_⟩
    rw [syncRemaining_pos objects _ idx hidx, syncRemaining_pos objects _ idx hidx]
    simp only [stateRemaining]
    simp
  | .type =>
    by_cases hd : 0 < (objects.getD idx ⟨0, []⟩).data.length
    · refine ⟨(objects.getD idx ⟨0, []⟩).object_type, .data 0, idx, ?_, ?_, ?_⟩
      · simp only [syncStep]
        rw [if_pos hd]
      · exact (validState_data_iff objects 0 idx hidx).mpr hd
      · rw [syncRemaining_pos objects _ idx hidx, syncRemaining_pos objects _ idx hidx]
        simp only [stateRemaining, List.drop_zero]
        simp
    · refine ⟨(objects.getD idx ⟨0, []⟩).object_type, .len1, idx + 1, ?_, rfl, ?_⟩
      · simp only [syncStep]
        rw [if_neg hd]
      · have hnil : (objects.getD idx ⟨0, []⟩).data = [] :=
          List.length_eq_zero.mp (by omega)
        rw [syncRemaining_pos objects _ idx hidx, syncRemaining_len1]
        simp only [stateRemaining, hnil]
        simp
  | .data off =>
    have hoff : off < (objects.getD idx ⟨0, []⟩).data.length :=
      (validState_data_iff objects off idx hidx).mp hv
    have hdropd : (objects.getD idx ⟨0, []⟩).data.drop off =
        (objects.getD idx ⟨0, []⟩).data.get ⟨off, hoff⟩ ::
          (objects.getD idx ⟨0, []⟩).data.drop (off + 1) := by
      simp only [List.get_eq_getElem]
      exact List.drop_eq_getElem_cons hoff
    by_cases hlast : (objects.getD idx ⟨0, []⟩).data.length - 1 ≤ off
    · refine ⟨(objects.getD idx ⟨0, []⟩).data.get ⟨off, hoff⟩, .len1, idx + 1, ?_, rfl, ?_⟩
      · simp only [syncStep]
        rw [dif_pos hoff, if_pos hlast]
      · have hdrop1 : (objects.getD idx ⟨0, []⟩).data.drop (off + 1) = [] := by
          rw [List.drop_eq_nil_iff]
          omega
        rw [syncRemaining_pos objects _ idx hidx, syncRemaining_len1]
        simp only [stateRemaining]
        rw [hdropd, hdrop1]
        simp
    · refine ⟨(objects.getD idx ⟨0, []⟩).data.get ⟨off, hoff⟩, .data (off + 1), idx, ?_, ?_, ?_⟩
      · simp only [syncStep]
        rw [dif_pos hoff, if_neg hlast]
      · exact (validState_data_iff objects (off + 1) idx hidx).mpr (by omega)
      · rw [syncRemaining_pos objects _ idx hidx, syncRemaining_pos objects _ idx hidx]
        simp only [stateRemaining]
        rw [hdropd]
        simp only [List.cons_append]

/-- Behaviour of `SyncSerializer::read` from a valid state: it returns the
next `min n remaining` bytes and moves to a valid state with the rest of the
bytes remaining. -/
theorem syncRead_spec (objects : List Object) :
    ∀ (n : Nat) (s : State) (idx : Nat), validState objects s idx = true →
    ∃ s2 idx2, syncRead objects s idx n = .ok ((syncRemaining objects s idx).take n, s2, idx2)
      ∧ validState objects s2 idx2 = true
      ∧ syncRemaining objects s2 idx2 = (syncRemaining objects s idx).drop n := by
  intro n
  induction n with
  | zero =>
    intro s idx h
    exact ⟨s, idx, rfl, h, rfl⟩
  | succ n ih =>
    intro s idx h
    by_cases hidx : idx < objects.length
    · obtain ⟨b, s2, idx2, hstep, hv2, hrem⟩ := syncStep_remaining objects s idx hidx h
      obtain ⟨s3, idx3, heq, hv3, hrem3⟩ := ih s2 idx2 hv2
      refine ⟨s3, idx3, ?_, hv3, ?_⟩
      · rw [syncRead_succ_pos objects s idx n hidx]
        simp only [hstep, heq, hrem]
        simp [List.take_succ_cons]
      · rw [hrem, hrem3]
        simp
    · have hrem : syncRemaining objects s idx = [] := syncRemaining_neg objects s idx hidx
      refine ⟨s, idx, ?_, h, ?_⟩
      · rw [syncRead_succ_neg objects s idx n hidx, hrem]
        simp
      · rw [hrem]
        simp

/-- Draining a valid sync serializer state with buffers of size `n ≥ 1`,
until a read falls short of `n` bytes, yields exactly its remaining output,
given fuel for at least `remaining + 1` calls. -/
theorem drainSync_spec (objects : List Object) :
    ∀ (fuel : Nat) (s : State) (idx n : Nat), 1 ≤ n →
    validState objects s idx = true → (syncRemaining objects s idx).length < fuel →
    drainSync objects n fuel s idx = .ok (some (syncRemaining objects s idx)) := by
  intro fuel
  induction fuel with
  | zero => intro s idx n hn hv hlt; omega
  | succ fuel ih =>
    intro s idx n hn hv hlt
    obtain ⟨s2, idx2, heq, hv2, hrem⟩ := syncRead_spec objects n s idx hv
    by_cases hcase : (syncRemaining objects s idx).length < n
    · have htake : (syncRemaining objects s idx).take n = syncRemaining objects s idx :=
        List.take_of_length_le (le_of_lt hcase)
      simp [drainSync, heq, htake, hcase]
    · push_neg at hcase
      have hlen : ((syncRemaining objects s idx).take n).length = n := by
        simp [List.length_take]; omega
      have hrec : (syncRemaining objects s2 idx2).length < fuel := by
        rw [hrem, List.length_drop]; omega
      have hdrain := ih s2 idx2 n hn hv2 hrec
      rw [hrem] at hdrain
      simp [drainSync, heq, hlen, hdrain, List.take_append_drop]

/-- Every reachable sync serializer state is valid. -/
theorem reachable_valid (objects : List Object) (s : State) (idx : Nat)
    (h : Reachable objects s idx) : validState objects s idx = true := by
  induction h with
  | init => rfl
  | step hr hread ih =>
    rename_i s idx n out s2 idx2
    obtain ⟨s2b, idx2b, heq, hv2, _⟩ := syncRead_spec objects n s idx ih
    rw [hread] at heq
    injection heq with heq2
    injection heq2 with heq3 heq4
    injection heq4 with heq5 heq6
    subst heq5
    subst heq6
    exact hv2

/-- The remaining output of a reachable state is a suffix of the full
encoded stream. -/
theorem reachable_suffix (objects : List Object) (s : State) (idx : Nat)
    (h : Reachable objects s idx) :
    syncRemaining objects s idx <:+ encodeObjects objects := by
  induction h with
  | init => rw [syncRemaining_len1]; simp
  | step hr hread ih =>
    rename_i s idx n out s2 idx2
    obtain ⟨s2b, idx2b, heq, _, hrem⟩ :=
      syncRead_spec objects n s idx (reachable_valid objects s idx hr)
    rw [hread] at heq
    injection heq with heq2
    injection heq2 with heq3 heq4
    injection heq4 with heq5 heq6
    subst heq5
    subst heq6
    rw [hrem]
    exact (List.drop_suffix _ _).trans ih


/-! ## Claim theorems -/

/-- C1 counterexample: for `objects = [Object{7, []}]` and buffer size 2,
draining *until a call reports 0* makes the async producer poll its
completed future (a panic), while the sync producer drains cleanly to
`[1,0,7]`.  The two drains therefore do not both terminate with identical
output under the claimed protocol. -/
theorem drainToZero_not_equivalent :
    drainAsyncToZero 2 3 (some (polling_serializer [⟨7, []⟩])) 0 = .error ()
    ∧ drainSyncToZero [⟨7, []⟩] 2 4 .len1 0 = .ok (some [1, 0, 7]) :=
  ⟨rfl, rfl⟩

/-- C1 (amended): for every sequence of objects and every buffer size
`n ≥ 1`, draining the suspension-based producer and the explicit
state-machine producer with `n`-byte buffers, stopping when a call reports
fewer than `n` bytes (as the repository's own drain loop does), yields
byte-for-byte identical concatenated output — both equal to the full
encoded stream. -/
theorem producers_equivalent (objects : List Object) (n : Nat) (h : 1 ≤ n) :
    drainAsync n ((encodeObjects objects).length + 1) (some (polling_serializer objects)) 0
      = .ok (some (encodeObjects objects))
    ∧ drainSync objects n ((encodeObjects objects).length + 1) .len1 0
      = .ok (some (encodeObjects objects)) := by
  constructor
  · have hd := drainAsync_spec ((encodeObjects objects).length + 1)
      (polling_serializer objects) 0 n h (polling_serializer_wf objects)
      (by rw [polling_serializer_bytes]; omega)
    rwa [polling_serializer_bytes] at hd
  · have hrem : syncRemaining objects .len1 0 = encodeObjects objects := by
      rw [syncRemaining_len1]
      simp
  -- initial state is valid by definition
    have hd := drainSync_spec objects ((encodeObjects objects).length + 1) .len1 0 n h rfl
      (by rw [hrem]; omega)
    rwa [hrem] at hd

theorem producers_equivalent_witness :
    drainAsync 2 ((encodeObjects [⟨7, []⟩]).length + 1)
        (some (polling_serializer [⟨7, []⟩])) 0 = .ok (some (encodeObjects [⟨7, []⟩]))
    ∧ drainSync [⟨7, []⟩] 2 ((encodeObjects [⟨7, []⟩]).length + 1) .len1 0
      = .ok (some (encodeObjects [⟨7, []⟩])) :=
  producers_equivalent [⟨7, []⟩] 2 (by decide)

/-- C2: the sync producer conforms (reads from an exhausted state return 0
and leave everything untouched), but the async producer does not: after the
read that signals exhaustion (returning 1 < 3 bytes below), the future is
completed, and the next read with a non-empty buffer polls it again —
`.error ()`, the Rust panic "async fn resumed after completion" — instead
of returning 0 without re-stepping. -/
theorem async_read_after_exhaustion_panics :
    asyncRead (some (polling_serializer [⟨1, [2]⟩])) 0 3
      = .ok ([2, 0, 1], some (.write 2 (.yield .done)), 1)
    ∧ asyncRead (some (.write 2 (.yield .done))) 1 3 = .ok ([2], none, 2)
    ∧ asyncRead none 2 3 = .error ()
    ∧ syncRead [⟨1, [2]⟩] .len1 1 3 = .ok ([], .len1, 1) :=
  ⟨rfl, rfl, rfl, rfl⟩

/-- C3: the serializer computation is well-formed, and one `poll_once` call
on any well-formed live future performs at most one register write (the
poll's write list has length ≤ 1), leaves a well-formed future, and equals
`runToSuspend` followed by applying the writes to the register. -/
theorem poll_once_writes_at_most_one_byte (objects : List Object) (c : Comp) (reg : Nat)
    (h : wfComp c = true) :
    wfComp (polling_serializer objects) = true
    ∧ (runToSuspend c).1.length ≤ 1
    ∧ stateWf (runToSuspend c).2 = true
    ∧ poll_once (some c) reg
      = .ok ((runToSuspend c).2, applyWrites reg (runToSuspend c).1, (runToSuspend c).2.isNone) := by
  refine ⟨polling_serializer_wf objects, ?_⟩
  rcases wfComp_cases c h with hc | ⟨b, k, hc, hk⟩
  · subst hc
    exact ⟨by simp [runToSuspend], rfl, rfl⟩
  · subst hc
    refine ⟨by simp [runToSuspend], ?_, ?_⟩
    · show stateWf (runToSuspend (.write b (.yield k))).2 = true
      simp [runToSuspend, stateWf, hk]
    · simp [poll_once, runToSuspend, applyWrites]

theorem poll_once_writes_at_most_one_byte_witness :
    wfComp (polling_serializer [⟨5, []⟩]) = true
    ∧ (runToSuspend (polling_serializer [⟨1, [2]⟩])).1.length ≤ 1
    ∧ stateWf (runToSuspend (polling_serializer [⟨1, [2]⟩])).2 = true
    ∧ poll_once (some (polling_serializer [⟨1, [2]⟩])) 0
      = .ok ((runToSuspend (polling_serializer [⟨1, [2]⟩])).2,
          applyWrites 0 (runToSuspend (polling_serializer [⟨1, [2]⟩])).1,
          (runToSuspend (polling_serializer [⟨1, [2]⟩])).2.isNone) :=
  poll_once_writes_at_most_one_byte [⟨5, []⟩] (polling_serializer [⟨1, [2]⟩]) 0 (by decide)

/-- The length field's value, computed from the encoder: low byte plus 256
times the high byte of the `u16` cast of `data.length + 1`. -/
theorem recordLenField_eq (obj : Object) :
    recordLenField obj = ((obj.data.length + 1) % 65536) % 256
      + 256 * (((obj.data.length + 1) % 65536) / 256 % 256) := rfl

/-- C4 counterexample: the length field is the 2-byte little-endian image of
`(data.length + 1) as u16`, which truncates: for a data block of 65535
bytes the field value is 0, not `data.length + 1 = 65536`. -/
theorem lenField_truncates :
    recordLenField ⟨1, List.replicate 65535 0⟩
      ≠ (List.replicate 65535 (0 : Nat)).length + 1 := by
  have hd : (⟨1, List.replicate 65535 0⟩ : Object).data = List.replicate 65535 0 := rfl
  rw [recordLenField_eq, hd, List.length_replicate]
  omega

/-- C4 (amended): whenever `data.length + 1` fits in a `u16`, the record
begins with a 2-byte little-endian length field whose value equals
`data.length + 1`, which equals the number of bytes following the field in
the record (one type byte plus the data bytes). -/
theorem lenField_correct (obj : Object) (h : obj.data.length + 1 < 65536) :
    recordLenField obj = obj.data.length + 1
    ∧ (encodeObject obj).length = 2 + recordLenField obj := by
  have hfield : recordLenField obj = obj.data.length + 1 := by
    rw [recordLenField_eq]
    omega
  refine ⟨hfield, ?_⟩
  rw [hfield]
  simp [encodeObject, lenBytes]
  omega

theorem lenField_correct_witness :
    recordLenField ⟨1, [2, 3]⟩ = (⟨1, [2, 3]⟩ : Object).data.length + 1
    ∧ (encodeObject ⟨1, [2, 3]⟩).length = 2 + recordLenField ⟨1, [2, 3]⟩ :=
  lenField_correct ⟨1, [2, 3]⟩ (by decide)

/-- C5: the single object `Object{type: 1, data: [1..8]}` serializes to
exactly `[9,0,1,1,2,3,4,5,6,7,8]` under both producers (read with a buffer
large enough for everything), matching the reference encoding. -/
theorem single_object_record :
    asyncRead (some (polling_serializer [⟨1, [1, 2, 3, 4, 5, 6, 7, 8]⟩])) 0 12
      = .ok ([9, 0, 1, 1, 2, 3, 4, 5, 6, 7, 8], none, 8)
    ∧ syncRead [⟨1, [1, 2, 3, 4, 5, 6, 7, 8]⟩] .len1 0 12
      = .ok ([9, 0, 1, 1, 2, 3, 4, 5, 6, 7, 8], .len1, 1)
    ∧ encodeObjects [⟨1, [1, 2, 3, 4, 5, 6, 7, 8]⟩] = [9, 0, 1, 1, 2, 3, 4, 5, 6, 7, 8] :=
  ⟨rfl, rfl, rfl⟩

/-- C6: the single object `Object{type: 7, data: []}` serializes to exactly
`[1,0,7]` under both producers, as normal control flow (`.ok`, no
panic/error). -/
theorem empty_data_record :
    asyncRead (some (polling_serializer [⟨7, []⟩])) 0 4 = .ok ([1, 0, 7], none, 7)
    ∧ syncRead [⟨7, []⟩] .len1 0 4 = .ok ([1, 0, 7], .len1, 1)
    ∧ encodeObjects [⟨7, []⟩] = [1, 0, 7] :=
  ⟨rfl, rfl, rfl⟩

/-- C7: for any fixed object sequence, draining with buffer sizes 1, 3 and 7
(stopping at a short read, as the repository's drain loop does), and a
single read with a buffer exactly large enough to hold everything, all
produce the same total output bytes — the full encoded stream — for both
producers. -/
theorem chunk_size_independence (objects : List Object) :
    drainSync objects 1 ((encodeObjects objects).length + 1) .len1 0
      = .ok (some (encodeObjects objects))
    ∧ drainSync objects 3 ((encodeObjects objects).length + 1) .len1 0
      = .ok (some (encodeObjects objects))
    ∧ drainSync objects 7 ((encodeObjects objects).length + 1) .len1 0
      = .ok (some (encodeObjects objects))
    ∧ (syncRead objects .len1 0 (encodeObjects objects).length).map (fun r => r.1)
      = .ok (encodeObjects objects)
    ∧ drainAsync 1 ((encodeObjects objects).length + 1) (some (polling_serializer objects)) 0
      = .ok (some (encodeObjects objects))
    ∧ drainAsync 3 ((encodeObjects objects).length + 1) (some (polling_serializer objects)) 0
      = .ok (some (encodeObjects objects))
    ∧ drainAsync 7 ((encodeObjects objects).length + 1) (some (polling_serializer objects)) 0
      = .ok (some (encodeObjects objects))
    ∧ (asyncRead (some (polling_serializer objects)) 0 (encodeObjects objects).length).map
        (fun r => r.1) = .ok (encodeObjects objects) := by
  have hrem : syncRemaining objects .len1 0 = encodeObjects objects := by
    rw [syncRemaining_len1]
    simp
  have hs : ∀ n, 1 ≤ n →
      drainSync objects n ((encodeObjects objects).length + 1) .len1 0
        = .ok (some (encodeObjects objects)) := by
    intro n hn
    have hd := drainSync_spec objects ((encodeObjects objects).length + 1) .len1 0 n hn rfl
      (by rw [hrem]; omega)
    rwa [hrem] at hd
  have ha : ∀ n, 1 ≤ n →
      drainAsync n ((encodeObjects objects).length + 1) (some (polling_serializer objects)) 0
        = .ok (some (encodeObjects objects)) := by
    intro n hn
    have hd := drainAsync_spec ((encodeObjects objects).length + 1) (polling_serializer objects)
      0 n hn (polling_serializer_wf objects) (by rw [polling_serializer_bytes]; omega)
    rwa [polling_serializer_bytes] at hd
  obtain ⟨s2, idx2, heqs, _, _⟩ :=
    syncRead_spec objects (encodeObjects objects).length .len1 0 rfl
  obtain ⟨f2, reg2, heqa, _, _, _⟩ :=
    asyncRead_spec (encodeObjects objects).length (polling_serializer objects) 0
      (polling_serializer_wf objects)
  refine ⟨hs 1 (by omega), hs 3 (by omega), hs 7 (by omega), ?_,
    ha 1 (by omega), ha 3 (by omega), ha 7 (by omega), ?_⟩
  · rw [heqs, hrem]
    simp [Except.map]
  · rw [heqa, polling_serializer_bytes]
    simp [Except.map]

/-- C8: a read with a zero-length buffer returns 0 bytes without polling or
stepping anything: the producer state (future progress and register for the
async producer; state tag and cursor for the sync producer) is returned
unchanged, from every state. -/
theorem zero_length_buffer_no_step :
    (∀ (f : Option Comp) (reg : Nat), asyncRead f reg 0 = .ok ([], f, reg))
    ∧ ∀ (objects : List Object) (s : State) (idx : Nat),
        syncRead objects s idx 0 = .ok ([], s, idx) :=
  ⟨fun _ _ => rfl, fun _ _ _ => rfl⟩

/-- C9: state invariant of the explicit FSM.  Every reachable state is
valid (a `Data(offset)` state with the cursor in range has `offset` a valid
index into the current object's data), its remaining output is a suffix of
the full encoding (so `(state, idx)` designates exactly the next byte to
emit), and a read of any size emits precisely the next `take n` bytes of
that remaining output, lands in a valid state, and advances the remaining
output by exactly the emitted bytes — no byte skipped or repeated. -/
theorem sync_state_invariant (objects : List Object) (s : State) (idx n : Nat)
    (h : Reachable objects s idx) :
    validState objects s idx = true
    ∧ syncRemaining objects s idx <:+ encodeObjects objects
    ∧ (syncRead objects s idx n).map (fun r => r.1)
      = .ok ((syncRemaining objects s idx).take n)
    ∧ (syncRead objects s idx n).map (fun r => validState objects r.2.1 r.2.2) = .ok true
    ∧ (syncRead objects s idx n).map (fun r => syncRemaining objects r.2.1 r.2.2)
      = .ok ((syncRemaining objects s idx).drop n) := by
  have hv := reachable_valid objects s idx h
  obtain ⟨s2, idx2, heq, hv2, hrem2⟩ := syncRead_spec objects n s idx hv
  refine ⟨hv, reachable_suffix objects s idx h, ?_, ?_, ?_⟩ <;> rw [heq] <;>
    simp [Except.map, hv2, hrem2]

theorem sync_state_invariant_witness :
    validState [⟨1, [2]⟩] State.len1 0 = true
    ∧ syncRemaining [⟨1, [2]⟩] State.len1 0 <:+ encodeObjects [⟨1, [2]⟩]
    ∧ (syncRead [⟨1, [2]⟩] State.len1 0 2).map (fun r => r.1)
      = .ok ((syncRemaining [⟨1, [2]⟩] State.len1 0).take 2)
    ∧ (syncRead [⟨1, [2]⟩] State.len1 0 2).map
        (fun r => validState [⟨1, [2]⟩] r.2.1 r.2.2) = .ok true
    ∧ (syncRead [⟨1, [2]⟩] State.len1 0 2).map
        (fun r => syncRemaining [⟨1, [2]⟩] r.2.1 r.2.2)
      = .ok ((syncRemaining [⟨1, [2]⟩] State.len1 0).drop 2) :=
  sync_state_invariant [⟨1, [2]⟩] State.len1 0 2 Reachable.init

/-- C10: from every reachable state, a read with buffer length `n` succeeds
(no panic) and writes and returns exactly `min n r` bytes, where `r` is the
length of the output remaining in the full encoding (the remaining output
is a suffix of the full encoded stream); in particular the buffer is filled
completely whenever enough output remains, and a read falls short only at
exhaustion. -/
theorem sync_read_exact_count (objects : List Object) (s : State) (idx n : Nat)
    (h : Reachable objects s idx) :
    (syncRead objects s idx n).map (fun r => r.1)
      = .ok ((syncRemaining objects s idx).take n)
    ∧ (syncRead objects s idx n).map (fun r => r.1.length)
      = .ok (min n (syncRemaining objects s idx).length)
    ∧ syncRemaining objects s idx <:+ encodeObjects objects := by
  obtain ⟨s2, idx2, heq, _, _⟩ :=
    syncRead_spec objects n s idx (reachable_valid objects s idx h)
  refine ⟨?_, ?_, reachable_suffix objects s idx h⟩ <;> rw [heq] <;>
    simp [Except.map, List.length_take]

theorem sync_read_exact_count_witness :
    (syncRead [⟨1, [2]⟩] State.len1 0 7).map (fun r => r.1)
      = .ok ((syncRemaining [⟨1, [2]⟩] State.len1 0).take 7)
    ∧ (syncRead [⟨1, [2]⟩] State.len1 0 7).map (fun r => r.1.length)
      = .ok (min 7 (syncRemaining [⟨1, [2]⟩] State.len1 0).length)
    ∧ syncRemaining [⟨1, [2]⟩] State.len1 0 <:+ encodeObjects [⟨1, [2]⟩] :=
  sync_read_exact_count [⟨1, [2]⟩] State.len1 0 7 Reachable.init
